import Mathlib

/-!
Shallow embedding of the fold-marker engine of `pytest_gitlab_fold`
(`pytest_gitlab_fold/__init__.py`).

Modelling conventions:
* Python strings are lists of characters (`Str := List Char`); string
  operations are restricted to the ASCII range, which is the range the
  engine's marker grammar and its tests exercise.
* The process-wide `defaultdict(int)` used by `get_and_increment` is made
  explicit as a `Counter := Str → Nat` value threaded through every stateful
  operation; `defaultdict(int)` means every key that was never incremented
  reads as `0`.
* The default section prefix `f"py-{os.getpid()}"` depends on the process
  identifier, so it is passed as an explicit parameter `pref`.
* `os.environ.get("GITLAB_CI")` is passed as an explicit `Option Str`.
* The `folding_output` context manager is embedded as a function from the
  wrapped body's observable behaviour (the writes it makes to the sink and
  the fault it raises, if any) to the sink's full write trace, the fault
  reaching the caller, and the final counter.
-/

namespace PytestGitlabFold

abbrev Str := List Char

/-- Python's word class `\w` in the ASCII range: letters, digits and the
underscore.  `PUNCT_RE = re.compile(r"\W+")` matches maximal runs of
characters for which this is `false`. -/
def isWordChar (c : Char) : Bool := c.isAlphanum || c == '_'

/-- One left-to-right pass implementing `re.sub` of "runs of characters
failing `p`" by a single `'-'`.  The flag `inRun` records whether the scanner
is currently inside such a run (whose replacement dash was already
emitted). -/
def subRunsAux (p : Char → Bool) : Bool → Str → Str
  | _, [] => []
  | inRun, c :: cs =>
    if p c then c :: subRunsAux p false cs
    else if inRun then subRunsAux p true cs
    else '-' :: subRunsAux p true cs

/-- Embeds `PUNCT_RE.sub("-", s)`: every maximal run of non-word characters is
replaced by a single `'-'`. -/
def subNonWord (s : Str) : Str := subRunsAux isWordChar false s

/-- Python `s.strip("-")`: remove all leading and all trailing `'-'`. -/
def stripDash (s : Str) : Str :=
  List.rdropWhile (fun c => c == '-') (s.dropWhile (fun c => c == '-'))

/-- Python `s.lower()` restricted to the ASCII range. -/
def pyLower (s : Str) : Str := s.map Char.toLower

/-- Embeds `normalize_name(name)`: `PUNCT_RE.sub("-", name.lower()).strip("-")`. -/
def normalize_name (name : Str) : Str := stripDash (subNonWord (pyLower name))

/-- The state of the `counter=defaultdict(int)` default argument of
`get_and_increment`, keyed by (normalized) section name. -/
abbrev Counter := Str → Nat

/-- A `defaultdict(int)` in which no key was ever incremented. -/
def initCounter : Counter := fun _ => 0

/-- Embeds `get_and_increment(name)`: return the current count for `name` and the
counter with that entry incremented. -/
def get_and_increment (name : Str) (counter : Counter) : Nat × Counter :=
  (counter name, fun k => if k = name then counter name + 1 else counter k)

/-- Embeds `section_name(name, n, prefix)`; `pref` stands for the default
`f"py-{os.getpid()}"`.  `str(n)` is `Nat.repr`; `filter(bool, ...)` keeps the
non-empty components. -/
def section_name (name : Str) (n : Nat) (pref : Str) : Str :=
  List.intercalate ['.'] (([pref, name, (Nat.repr n).data]).filter (fun s => !s.isEmpty))

/-- Embeds `section_marks(section, line_end)`: the start/end GitLab fold marks. -/
def section_marks (sect : Str) (line_end : Str) : Str × Str :=
  ("gitlab_fold:start:".data ++ sect ++ line_end,
   "gitlab_fold:end:".data ++ sect ++ line_end)

/-- Embeds `new_section(name)`: normalize the name, allocate its next sequence
number and build the section name. -/
def new_section (name : Str) (pref : Str) (counter : Counter) : Str × Counter :=
  let nn := normalize_name name
  let r := get_and_increment nn counter
  (section_name nn r.1 pref, r.2)

/-- Embeds `new_section_marks(name, line_end)`: create a new section and return its
pair of fold marks. -/
def new_section_marks (name : Str) (line_end : Str) (pref : Str)
    (counter : Counter) : (Str × Str) × Counter :=
  let r := new_section name pref counter
  (section_marks r.1 line_end, r.2)

/-- Embeds `detect_line_end(string, line_end)`: when `line_end` is `None`, return
`"\n"` if `string` is non-empty and ends with `"\n"`, else `""`. -/
def detect_line_end (string : Str) (line_end : Option Str) : Str :=
  match line_end with
  | some le => le
  | none => if !string.isEmpty && List.isSuffixOf ['\n'] string then ['\n'] else []

/-- Embeds `GitLabContext.setup_fold_enabled(value)`: `"never"` disables, `"always"`
enables, anything else probes `os.environ.get("GITLAB_CI") == "true"`. -/
def setup_fold_enabled (value : Str) (gitlab_ci : Option Str) : Bool :=
  if value = "never".data then false
  else if value = "always".data then true
  else gitlab_ci == some "true".data

/-- Embeds `GitLabContext.is_fold_enabled(force)`: a non-`None` `force` wins, else
the instance's `fold_enabled` flag applies. -/
def is_fold_enabled (fold_enabled : Bool) (force : Option Bool) : Bool :=
  match force with
  | some b => b
  | none => fold_enabled

/-- Embeds `GitLabContext.fold_lines(lines, name, line_end, force)`.  The inferred
line end uses `lines[-1] if lines else ""`; the result splices `lines`
between the two fresh marks. -/
def fold_lines (fold_enabled : Bool) (lines : List Str) (name : Str)
    (line_end : Option Str) (force : Option Bool) (pref : Str)
    (counter : Counter) : List Str × Counter :=
  if !is_fold_enabled fold_enabled force then (lines, counter)
  else
    let le := detect_line_end (lines.getLast?.getD []) line_end
    let r := new_section_marks name le pref counter
    (r.1.1 :: (lines ++ [r.1.2]), r.2)

/-- Embeds `GitLabContext.fold_string(string, name, sep, line_end, force)`: unless
`sep` is non-empty or the string already ends with the (inferred) line end,
the separator defaults to `"\n"`; the three elements produced by
`fold_lines([string], ...)` are then joined with it. -/
def fold_string (fold_enabled : Bool) (string : Str) (name : Str) (sep : Str)
    (line_end : Option Str) (force : Option Bool) (pref : Str)
    (counter : Counter) : Str × Counter :=
  if !is_fold_enabled fold_enabled force then (string, counter)
  else
    let le := detect_line_end string line_end
    let sep2 :=
      if !(!sep.isEmpty || (!le.isEmpty && List.isSuffixOf le string)) then ['\n']
      else sep
    let r := fold_lines fold_enabled [string] name (some le) force pref counter
    (List.intercalate sep2 r.1, r.2)

/-- One run of the `GitLabContext.folding_output(name, file, force)` context
manager.  The wrapped body is given by the writes it performs on the sink
(`body_writes`) and the fault it raises, if any (`body_fault`); the result is
the full write trace the sink observes, the fault that reaches the caller,
and the final counter.  The `try`/`finally` in the source writes the end mark
after the body both on normal completion and before a fault propagates, and
never catches the fault; the marks are created with `line_end="\n"`. -/
def folding_output (ε : Type) (fold_enabled : Bool) (name : Str)
    (force : Option Bool) (pref : Str) (counter : Counter)
    (body_writes : List Str) (body_fault : Option ε) :
    List Str × Option ε × Counter :=
  if !is_fold_enabled fold_enabled force then (body_writes, body_fault, counter)
  else
    let r := new_section_marks name ['\n'] pref counter
    (r.1.1 :: (body_writes ++ [r.1.2]), body_fault, r.2)

/-- The counter left by a sequence of `get_and_increment` calls, one per
element of `names`, in order. -/
def runCalls (names : List Str) (c : Counter) : Counter :=
  names.foldl (fun acc n => (get_and_increment n acc).2) c

/-- Replace each maximal run of characters failing `p` by a single `'-'`,
stated directly on maximal runs: on meeting a character failing `p`, emit one
`'-'` and skip the whole remaining run at once. -/
def replaceRuns (p : Char → Bool) : Str → Str
  | [] => []
  | c :: cs =>
    if p c then c :: replaceRuns p cs
    else '-' :: replaceRuns p (cs.dropWhile (fun d => !p d))
termination_by s => s.length
decreasing_by
  · simp
  · have hs := List.Sublist.length_le (List.dropWhile_sublist (fun d => !p d) (l := cs))
    simp
    omega

/-- The character class named by claim C8: alphanumeric characters only, the
underscore NOT among them (unlike `\w`). -/
def isAlnumChar (c : Char) : Bool := c.isAlphanum

/-- The normalizer as claim C8 words it: lowercase, collapse every maximal
run of NON-ALPHANUMERIC characters to a single `'-'`, strip leading and
trailing `'-'`.  It differs from `normalize_name`, whose `\W` treats the
underscore as a word character and keeps it. -/
def normalize_name_claim (name : Str) : Str :=
  stripDash (replaceRuns isAlnumChar (pyLower name))

/-- Well-formedness of an already-collapsed string, checked left to right:
every character either satisfies `p`, or is a `'-'` that does not directly
follow another collapsed run (`inRun` tracks that).  Strings in the image of
`subRunsAux` satisfy this, and `subRunsAux` fixes every string satisfying
it. -/
def okFrom (p : Char → Bool) : Bool → Str → Bool
  | _, [] => true
  | inRun, c :: cs =>
    if p c then okFrom p false cs
    else (c == '-') && !inRun && okFrom p true cs

/-- C3: the enabled decision obeys the stated precedence: a non-`none`
`force` wins outright; otherwise the instance flag applies, which the
constructor sets to disabled for `"never"`, enabled for `"always"`, and for
any other configuration value to the auto probe, i.e. enabled exactly when
the `GITLAB_CI` environment variable equals the exact string `"true"`. -/
theorem enabled_decision_precedence (value : Str) (env : Option Str) :
    (∀ b : Bool, is_fold_enabled (setup_fold_enabled value env) (some b) = b) ∧
    (∀ fe : Bool, is_fold_enabled fe none = fe) ∧
    (value = "never".data → setup_fold_enabled value env = false) ∧
    (value = "always".data → setup_fold_enabled value env = true) ∧
    (value ≠ "never".data → value ≠ "always".data →
      (setup_fold_enabled value env = true ↔ env = some "true".data)) := by
  refine ⟨fun b => rfl, fun fe => rfl, fun h => by subst h; rfl,
    fun h => by subst h; rfl, fun h1 h2 => ?_⟩
  rw [setup_fold_enabled, if_neg h1, if_neg h2]
  exact beq_iff_eq

/-- C3 witness: with configuration `"x"` (neither `"never"` nor `"always"`)
and `GITLAB_CI="true"`, the constructor enables folding. -/
theorem enabled_decision_precedence_witness :
    setup_fold_enabled "x".data (some "true".data) = true :=
  ((enabled_decision_precedence "x".data (some "true".data)).2.2.2.2
    (by decide) (by decide)).mpr rfl

/-- C4: the sequence allocator returns `0` on the first call for a name,
returns the current count of the threaded counter, returns `N + 1` on the
call following the one that returned `N`, and interleaved calls for other
names leave that name's count unchanged. -/
theorem get_and_increment_sequence (name : Str) (c : Counter)
    (names : List Str) :
    (get_and_increment name initCounter).1 = 0 ∧
    (get_and_increment name c).1 = c name ∧
    (get_and_increment name ((get_and_increment name c).2)).1
      = (get_and_increment name c).1 + 1 ∧
    (name ∉ names → runCalls names c name = c name) := by
  refine ⟨rfl, rfl, by simp [get_and_increment], ?_⟩
  induction names generalizing c with
  | nil => intro _; rfl
  | cons n t ih =>
    intro hmem
    have hne : name ≠ n := fun h => hmem (by simp [h])
    have ht : name ∉ t := fun h => hmem (by simp [h])
    have : runCalls (n :: t) c = runCalls t ((get_and_increment n c).2) := rfl
    rw [this, ih _ ht]
    simp [get_and_increment, hne]

/-- C4 witness: a call for `"b"` does not perturb the count of `"a"`. -/
theorem get_and_increment_sequence_witness :
    runCalls ["b".data] initCounter "a".data = initCounter "a".data :=
  (get_and_increment_sequence "a".data initCounter ["b".data]).2.2.2 (by decide)

/-- C2: whenever the enabled decision with no `force` override evaluates to
disabled, all three public operations return/pass through their input
unchanged and leave the counter map completely unchanged. -/
theorem disabled_is_noop (fe : Bool) (lines : List Str)
    (string name sep pref : Str) (le : Option Str) (c : Counter) (ε : Type)
    (writes : List Str) (fault : Option ε)
    (h : is_fold_enabled fe none = false) :
    fold_lines fe lines name le none pref c = (lines, c) ∧
    fold_string fe string name sep le none pref c = (string, c) ∧
    folding_output ε fe name none pref c writes fault = (writes, fault, c) := by
  refine ⟨?_, ?_, ?_⟩ <;> simp [fold_lines, fold_string, folding_output, h]

/-- C2 witness: with the flag constructed disabled and no override, each
operation is an identity on its input and on the counter. -/
theorem disabled_is_noop_witness :
    is_fold_enabled false none = false ∧
    fold_lines false ["x\n".data] "n".data none none "p".data initCounter
      = (["x\n".data], initCounter) ∧
    fold_string false "x\n".data "n".data [] none none "p".data initCounter
      = ("x\n".data, initCounter) ∧
    folding_output Nat false "n".data none "p".data initCounter
      ["w".data] (some 7) = (["w".data], some 7, initCounter) :=
  ⟨rfl,
   (disabled_is_noop false ["x\n".data] "x\n".data "n".data [] "p".data none
      initCounter Nat ["w".data] (some 7) rfl).1,
   (disabled_is_noop false ["x\n".data] "x\n".data "n".data [] "p".data none
      initCounter Nat ["w".data] (some 7) rfl).2.1,
   (disabled_is_noop false ["x\n".data] "x\n".data "n".data [] "p".data none
      initCounter Nat ["w".data] (some 7) rfl).2.2⟩

/-- C1: with folding enabled, a `folding_output` run writes the start mark,
then the body's writes, then always the end mark — also when the body raises
a fault — and the body's fault (if any) reaches the caller unchanged. -/
theorem folding_output_end_mark_always (ε : Type) (fe : Bool)
    (force : Option Bool) (name pref : Str) (c : Counter) (writes : List Str)
    (fault : Option ε) (h : is_fold_enabled fe force = true) :
    (folding_output ε fe name force pref c writes fault).1
      = ("gitlab_fold:start:".data
           ++ section_name (normalize_name name) (c (normalize_name name)) pref
           ++ ['\n'])
        :: (writes
        ++ ["gitlab_fold:end:".data
           ++ section_name (normalize_name name) (c (normalize_name name)) pref
           ++ ['\n']]) ∧
    (folding_output ε fe name force pref c writes fault).2.1 = fault := by
  constructor <;>
    simp [folding_output, new_section_marks, new_section, section_marks,
      get_and_increment, h]

/-- C1 witness: a faulting body (`some 7`) still gets its end mark written,
and the fault passes through. -/
theorem folding_output_end_mark_always_witness :
    is_fold_enabled true none = true ∧
    (folding_output Nat true "x".data none "p".data initCounter
        ["Ouu!\n".data] (some 7)).1
      = ("gitlab_fold:start:".data
           ++ section_name (normalize_name "x".data)
                (initCounter (normalize_name "x".data)) "p".data
           ++ ['\n'])
        :: (["Ouu!\n".data]
        ++ ["gitlab_fold:end:".data
           ++ section_name (normalize_name "x".data)
                (initCounter (normalize_name "x".data)) "p".data
           ++ ['\n']]) ∧
    (folding_output Nat true "x".data none "p".data initCounter
        ["Ouu!\n".data] (some 7)).2.1 = some 7 :=
  ⟨rfl,
   (folding_output_end_mark_always Nat true none "x".data "p".data
      initCounter ["Ouu!\n".data] (some 7) rfl).1,
   (folding_output_end_mark_always Nat true none "x".data "p".data
      initCounter ["Ouu!\n".data] (some 7) rfl).2⟩

/-- C7: one `new_section_marks` call yields exactly
`"gitlab_fold:start:" ++ id ++ lineEnd` and `"gitlab_fold:end:" ++ id ++
lineEnd` with the identical section identifier and identical terminator in
both, and allocates the identifier once: the counter advances by exactly one
at the normalized name and nowhere else. -/
theorem new_section_marks_shared_id (name le pref : Str) (c : Counter) :
    (new_section_marks name le pref c).1.1
      = "gitlab_fold:start:".data
        ++ section_name (normalize_name name) (c (normalize_name name)) pref
        ++ le ∧
    (new_section_marks name le pref c).1.2
      = "gitlab_fold:end:".data
        ++ section_name (normalize_name name) (c (normalize_name name)) pref
        ++ le ∧
    (new_section_marks name le pref c).2 (normalize_name name)
      = c (normalize_name name) + 1 ∧
    ∀ k, k ≠ normalize_name name → (new_section_marks name le pref c).2 k = c k := by
  refine ⟨rfl, rfl, by simp [new_section_marks, new_section, get_and_increment], ?_⟩
  intro k hk
  simp [new_section_marks, new_section, get_and_increment, hk]

theorem intercalate_three (sep a b c : Str) :
    List.intercalate sep [a, b, c] = a ++ sep ++ b ++ sep ++ c := by
  simp [List.intercalate, List.intersperse]

theorem detect_line_end_some (s le : Str) : detect_line_end s (some le) = le := rfl

theorem fold_string_enabled_eq (fe : Bool) (force : Option Bool)
    (string name sep pref : Str) (le : Option Str) (c : Counter)
    (h : is_fold_enabled fe force = true) :
    (fold_string fe string name sep le force pref c).1
      = ("gitlab_fold:start:".data
           ++ section_name (normalize_name name) (c (normalize_name name)) pref
           ++ detect_line_end string le)
        ++ (if !sep.isEmpty then sep
            else if !(detect_line_end string le).isEmpty
                    && List.isSuffixOf (detect_line_end string le) string
            then [] else ['\n'])
        ++ string
        ++ (if !sep.isEmpty then sep
            else if !(detect_line_end string le).isEmpty
                    && List.isSuffixOf (detect_line_end string le) string
            then [] else ['\n'])
        ++ ("gitlab_fold:end:".data
           ++ section_name (normalize_name name) (c (normalize_name name)) pref
           ++ detect_line_end string le) := by
  rw [fold_string, if_neg (by simp [h])]
  cases hs : sep.isEmpty with
  | false =>
    simp [fold_lines, h, detect_line_end_some, new_section_marks, new_section,
      section_marks, get_and_increment, intercalate_three, hs,
      List.append_assoc]
  | true =>
    have hsep : sep = [] := by simpa using hs
    subst hsep
    cases hc : (!(detect_line_end string le).isEmpty
        && List.isSuffixOf (detect_line_end string le) string) with
    | false =>
      simp [fold_lines, h, detect_line_end_some, new_section_marks,
        new_section, section_marks, get_and_increment, intercalate_three, hc,
        List.append_assoc]
    | true =>
      simp [fold_lines, h, detect_line_end_some, new_section_marks,
        new_section, section_marks, get_and_increment, intercalate_three, hc,
        List.append_assoc]

/-- C5: with folding enabled, `fold_lines` returns exactly
`[start] ++ lines ++ [end]` for a freshly built marker pair whose line
terminator, when not given, is inferred from the last element of the list
(`"\n"` iff that element is non-empty and ends with `"\n"`, the empty string
when the list is empty); the empty list yields exactly `[start, end]`. -/
theorem fold_lines_enabled_shape (fe : Bool) (force : Option Bool)
    (lines : List Str) (name pref : Str) (c : Counter)
    (h : is_fold_enabled fe force = true) :
    (fold_lines fe lines name none force pref c).1
      = ["gitlab_fold:start:".data
           ++ section_name (normalize_name name) (c (normalize_name name)) pref
           ++ (if !(lines.getLast?.getD []).isEmpty
                  && List.isSuffixOf ['\n'] (lines.getLast?.getD [])
               then ['\n'] else [])]
        ++ lines
        ++ ["gitlab_fold:end:".data
           ++ section_name (normalize_name name) (c (normalize_name name)) pref
           ++ (if !(lines.getLast?.getD []).isEmpty
                  && List.isSuffixOf ['\n'] (lines.getLast?.getD [])
               then ['\n'] else [])] ∧
    (fold_lines fe [] name none force pref c).1
      = ["gitlab_fold:start:".data
           ++ section_name (normalize_name name) (c (normalize_name name)) pref,
         "gitlab_fold:end:".data
           ++ section_name (normalize_name name) (c (normalize_name name)) pref] := by
  constructor <;>
    simp [fold_lines, h, detect_line_end, new_section_marks, new_section,
      section_marks, get_and_increment]

/-- C5 witness: a single line ending in a newline gets newline-terminated
marks spliced around it. -/
theorem fold_lines_enabled_shape_witness :
    is_fold_enabled true none = true ∧
    (fold_lines true ["Aww!\n".data] "n".data none none "p".data
        initCounter).1
      = ["gitlab_fold:start:".data
           ++ section_name (normalize_name "n".data)
                (initCounter (normalize_name "n".data)) "p".data
           ++ (if !((["Aww!\n".data] : List Str).getLast?.getD []).isEmpty
                  && List.isSuffixOf ['\n']
                       ((["Aww!\n".data] : List Str).getLast?.getD [])
               then ['\n'] else [])]
        ++ ["Aww!\n".data]
        ++ ["gitlab_fold:end:".data
           ++ section_name (normalize_name "n".data)
                (initCounter (normalize_name "n".data)) "p".data
           ++ (if !((["Aww!\n".data] : List Str).getLast?.getD []).isEmpty
                  && List.isSuffixOf ['\n']
                       ((["Aww!\n".data] : List Str).getLast?.getD [])
               then ['\n'] else [])] :=
  ⟨rfl,
   (fold_lines_enabled_shape true none ["Aww!\n".data] "n".data "p".data
      initCounter rfl).1⟩

/-- C6: with folding enabled, `fold_string` joins start-mark, text, end-mark
with the separator chosen as: the caller's separator if non-empty, else the
empty separator if the (inferred or given) line terminator is non-empty and
the text ends with it, else a single newline; in particular a text already
ending in the inferred terminator, such as `"boo!\n"`, gets no extra blank
line. -/
theorem fold_string_enabled_shape (fe : Bool) (force : Option Bool)
    (string name sep pref : Str) (le : Option Str) (c : Counter)
    (h : is_fold_enabled fe force = true) :
    ((fold_string fe string name sep le force pref c).1
      = ("gitlab_fold:start:".data
           ++ section_name (normalize_name name) (c (normalize_name name)) pref
           ++ detect_line_end string le)
        ++ (if !sep.isEmpty then sep
            else if !(detect_line_end string le).isEmpty
                    && List.isSuffixOf (detect_line_end string le) string
            then [] else ['\n'])
        ++ string
        ++ (if !sep.isEmpty then sep
            else if !(detect_line_end string le).isEmpty
                    && List.isSuffixOf (detect_line_end string le) string
            then [] else ['\n'])
        ++ ("gitlab_fold:end:".data
           ++ section_name (normalize_name name) (c (normalize_name name)) pref
           ++ detect_line_end string le)) ∧
    (fold_string fe "boo!\n".data name [] none force pref c).1
      = ("gitlab_fold:start:".data
           ++ section_name (normalize_name name) (c (normalize_name name)) pref
           ++ ['\n'])
        ++ "boo!\n".data
        ++ ("gitlab_fold:end:".data
           ++ section_name (normalize_name name) (c (normalize_name name)) pref
           ++ ['\n']) := by
  refine ⟨fold_string_enabled_eq fe force string name sep pref le c h, ?_⟩
  rw [fold_string_enabled_eq fe force "boo!\n".data name [] pref none c h]
  have hd : detect_line_end "boo!\n".data none = ['\n'] := rfl
  have hsuf : List.isSuffixOf ['\n'] "boo!\n".data = true := by decide
  simp [hd, hsuf, List.append_assoc]

/-- C6 witness: `"Woo!"` (no trailing newline) is separated from the marks
by inserted newlines. -/
theorem fold_string_enabled_shape_witness :
    is_fold_enabled true none = true ∧
    (fold_string true "Woo!".data "n".data [] none none "p".data
        initCounter).1
      = ("gitlab_fold:start:".data
           ++ section_name (normalize_name "n".data)
                (initCounter (normalize_name "n".data)) "p".data
           ++ detect_line_end "Woo!".data none)
        ++ (if !([] : Str).isEmpty then []
            else if !(detect_line_end "Woo!".data none).isEmpty
                    && List.isSuffixOf (detect_line_end "Woo!".data none)
                         "Woo!".data
            then [] else ['\n'])
        ++ "Woo!".data
        ++ (if !([] : Str).isEmpty then []
            else if !(detect_line_end "Woo!".data none).isEmpty
                    && List.isSuffixOf (detect_line_end "Woo!".data none)
                         "Woo!".data
            then [] else ['\n'])
        ++ ("gitlab_fold:end:".data
           ++ section_name (normalize_name "n".data)
                (initCounter (normalize_name "n".data)) "p".data
           ++ detect_line_end "Woo!".data none) :=
  ⟨rfl,
   (fold_string_enabled_shape true none "Woo!".data "n".data [] "p".data
      none initCounter rfl).1⟩

/-- C10: with folding enabled and no explicit separator or terminator, the
empty string is not passed through: the inferred terminator is empty, the
separator defaults to `"\n"`, and the result is exactly the two marker
bodies with one blank line between them, for a freshly allocated identifier
whose sequence counter advances. -/
theorem fold_string_empty_input (name pref : Str) (c : Counter) :
    (fold_string true [] name [] none none pref c).1
      = "gitlab_fold:start:".data
          ++ section_name (normalize_name name) (c (normalize_name name)) pref
          ++ ['\n'] ++ ['\n']
          ++ ("gitlab_fold:end:".data
              ++ section_name (normalize_name name) (c (normalize_name name)) pref) ∧
    (fold_string true [] name [] none none pref c).1 ≠ [] ∧
    (fold_string true [] name [] none none pref c).2 (normalize_name name)
      = c (normalize_name name) + 1 := by
  have h1 : (fold_string true [] name [] none none pref c).1
      = "gitlab_fold:start:".data
          ++ section_name (normalize_name name) (c (normalize_name name)) pref
          ++ ['\n'] ++ ['\n']
          ++ ("gitlab_fold:end:".data
              ++ section_name (normalize_name name) (c (normalize_name name)) pref) := by
    rw [fold_string, if_neg (by decide)]
    simp [fold_lines, detect_line_end, new_section_marks, new_section,
      section_marks, get_and_increment, intercalate_three, is_fold_enabled,
      List.append_assoc]
  refine ⟨h1, ?_, ?_⟩
  · rw [h1]; simp
  · rw [fold_string, if_neg (by decide)]
    simp [fold_lines, detect_line_end, new_section_marks, new_section,
      section_marks, get_and_increment, is_fold_enabled]

/-- C7 witness: allocating for `"a"` leaves the count of `"b"` untouched. -/
theorem new_section_marks_shared_id_witness :
    (new_section_marks "a".data [] "p".data initCounter).2 "b".data
      = initCounter "b".data :=
  (new_section_marks_shared_id "a".data [] "p".data initCounter).2.2.2
    "b".data (by decide)

theorem char_toNat_ofNat_valid {n : Nat} (h : n.isValidChar) :
    (Char.ofNat n).toNat = n := by
  rw [Char.ofNat, dif_pos h]; rfl

theorem toLower_toLower (c : Char) : c.toLower.toLower = c.toLower := by
  unfold Char.toLower
  by_cases h : c.toNat >= 65 ∧ c.toNat <= 90
  · rw [if_pos h]
    have hv : (c.toNat + 32).isValidChar := Or.inl (by omega)
    have ht : (Char.ofNat (c.toNat + 32)).toNat = c.toNat + 32 :=
      char_toNat_ofNat_valid hv
    simp only [ht]
    rw [if_neg (by omega)]
  · rw [if_neg h, if_neg h]

theorem subRunsAux_fix (p : Char → Bool) :
    ∀ (l : Str) (b : Bool), okFrom p b l = true → subRunsAux p b l = l := by
  intro l
  induction l with
  | nil => intro b _; rfl
  | cons c cs ih =>
    intro b hok
    cases hpc : p c with
    | true =>
      simp only [subRunsAux, hpc, if_true]
      simp only [okFrom, hpc, if_true] at hok
      rw [ih false hok]
    | false =>
      simp [okFrom, hpc] at hok
      obtain ⟨⟨hdash, hb⟩, hrest⟩ := hok
      subst hdash hb
      simp only [subRunsAux, hpc, Bool.false_eq_true, if_false]
      rw [ih true hrest]

theorem okFrom_subRunsAux (p : Char → Bool) (hp : p '-' = false) :
    ∀ l : Str,
      (∀ b : Bool, okFrom p b (subRunsAux p true l) = true) ∧
      okFrom p false (subRunsAux p false l) = true := by
  intro l
  induction l with
  | nil => exact ⟨fun b => rfl, rfl⟩
  | cons c cs ih =>
    cases hpc : p c with
    | true =>
      constructor
      · intro b
        simp only [subRunsAux, hpc, if_true, okFrom]
        exact ih.2
      · simp only [subRunsAux, hpc, if_true, okFrom]
        exact ih.2
    | false =>
      constructor
      · intro b
        simp only [subRunsAux, hpc, if_true, if_false]
        exact ih.1 b
      · simp only [subRunsAux, hpc, Bool.false_eq_true, if_false]
        simp [okFrom, hp]
        exact ih.1 true

theorem okFrom_of_append (p : Char → Bool) :
    ∀ (l1 : Str) (b : Bool),
      (∀ l2, okFrom p b (l1 ++ l2) = true → okFrom p b l1 = true) := by
  intro l1
  induction l1 with
  | nil => intro b l2 _; rfl
  | cons c cs ih =>
    intro b l2 h
    cases hpc : p c with
    | true =>
      simp only [List.cons_append, okFrom, hpc, if_true] at h ⊢
      exact ih false l2 h
    | false =>
      simp [List.cons_append, okFrom, hpc] at h ⊢
      exact ⟨h.1, ih true l2 h.2⟩

theorem okFrom_dropWhile_dash (p : Char → Bool) (hp : p '-' = false) :
    ∀ l : Str, okFrom p false l = true →
      okFrom p false (l.dropWhile (fun c => c == '-')) = true := by
  intro l h
  cases l with
  | nil => simpa using h
  | cons c cs =>
    by_cases hc : c = '-'
    · subst hc
      rw [List.dropWhile_cons_of_pos (by simp)]
      simp [okFrom, hp] at h
      cases cs with
      | nil => rfl
      | cons d ds =>
        cases hpd : p d with
        | true =>
          have hd : d ≠ '-' := by
            intro he; rw [he] at hpd; rw [hp] at hpd; cases hpd
          rw [List.dropWhile_cons_of_neg (by simp [hd])]
          simp [okFrom, hpd] at h ⊢
          exact h
        | false => simp [okFrom, hpd] at h
    · rw [List.dropWhile_cons_of_neg (by simp [hc])]
      exact h

theorem okFrom_stripDash (p : Char → Bool) (hp : p '-' = false) (l : Str)
    (h : okFrom p false l = true) : okFrom p false (stripDash l) = true := by
  have h1 := okFrom_dropWhile_dash p hp l h
  rw [stripDash]
  have hpfx := List.rdropWhile_prefix (p := fun c => c == '-')
      (l := l.dropWhile (fun c => c == '-'))
  obtain ⟨t, ht⟩ := hpfx
  exact okFrom_of_append p _ false t (by rw [ht]; exact h1)

theorem stripDash_stripDash (l : Str) : stripDash (stripDash l) = stripDash l := by
  have key : List.dropWhile (fun c => c == '-') (stripDash l) = stripDash l := by
    cases hm : stripDash l with
    | nil => rfl
    | cons a t =>
      have hpfx := List.rdropWhile_prefix (p := fun c => c == '-')
          (l := l.dropWhile (fun c => c == '-'))
      rw [stripDash] at hm
      obtain ⟨r, hr⟩ := hpfx
      rw [hm] at hr
      have hq : (a == '-') = false := by
        have h0 := List.head?_dropWhile_not (fun c => c == '-') l
        rw [← hr] at h0
        simpa using h0
      rw [List.dropWhile_cons_of_neg (by simp [hq])]
  calc stripDash (stripDash l)
      = List.rdropWhile (fun c => c == '-')
          (List.dropWhile (fun c => c == '-') (stripDash l)) := rfl
    _ = List.rdropWhile (fun c => c == '-') (stripDash l) := by rw [key]
    _ = stripDash l := by
        rw [stripDash]
        exact List.rdropWhile_idempotent _ _

theorem mem_subRunsAux (p : Char → Bool) :
    ∀ (l : Str) (b : Bool) (c : Char), c ∈ subRunsAux p b l → c = '-' ∨ c ∈ l := by
  intro l
  induction l with
  | nil => intro b c h; simp [subRunsAux] at h
  | cons a t ih =>
    intro b c h
    cases hpa : p a with
    | true =>
      simp only [subRunsAux, hpa, if_true] at h
      rcases List.mem_cons.1 h with h1 | h2
      · right; simp [h1]
      · rcases ih false c h2 with h3 | h4
        · left; exact h3
        · right; simp [h4]
    | false =>
      cases b with
      | true =>
        simp only [subRunsAux, hpa, Bool.false_eq_true, if_false, if_true] at h
        rcases ih true c h with h3 | h4
        · left; exact h3
        · right; simp [h4]
      | false =>
        simp only [subRunsAux, hpa, Bool.false_eq_true, if_false] at h
        rcases List.mem_cons.1 h with h1 | h2
        · left; exact h1
        · rcases ih true c h2 with h3 | h4
          · left; exact h3
          · right; simp [h4]

theorem mem_stripDash (l : Str) (c : Char) (h : c ∈ stripDash l) : c ∈ l := by
  rw [stripDash] at h
  have hpfx := List.rdropWhile_prefix (p := fun x => x == '-')
      (l := l.dropWhile (fun x => x == '-'))
  have h1 := hpfx.sublist
  have h2 := List.dropWhile_sublist (fun x => x == '-') (l := l)
  exact (h1.trans h2).subset h

theorem map_fixed (f : Char → Char) :
    ∀ l : Str, (∀ c ∈ l, f c = c) → l.map f = l := by
  intro l
  induction l with
  | nil => intro _; rfl
  | cons a t ih =>
    intro h
    simp only [List.map_cons]
    rw [h a (by simp), ih (fun c hc => h c (by simp [hc]))]

theorem pyLower_fix_normalize (s : Str) :
    pyLower (normalize_name s) = normalize_name s := by
  apply map_fixed
  intro c hc
  have hc2 := mem_stripDash _ c hc
  rcases mem_subRunsAux isWordChar _ false c hc2 with h1 | h2
  · rw [h1]; decide
  · rw [pyLower] at h2
    obtain ⟨a, _, ha⟩ := List.mem_map.1 h2
    rw [← ha]
    exact toLower_toLower a

theorem subRunsAux_true_eq_dropWhile (p : Char → Bool) :
    ∀ l : Str, subRunsAux p true l = subRunsAux p false (l.dropWhile (fun d => !p d)) := by
  intro l
  induction l with
  | nil => rfl
  | cons c cs ih =>
    cases hpc : p c with
    | true =>
      rw [List.dropWhile_cons_of_neg (by simp [hpc])]
      simp [subRunsAux, hpc]
    | false =>
      rw [List.dropWhile_cons_of_pos (by simp [hpc])]
      simp [subRunsAux, hpc, ih]

theorem replaceRuns_eq_subRunsAux (p : Char → Bool) (l : Str) :
    replaceRuns p l = subRunsAux p false l := by
  induction l using replaceRuns.induct p with
  | case1 => simp [replaceRuns, subRunsAux]
  | case2 c cs hpc ih => simp [replaceRuns, subRunsAux, hpc, ih]
  | case3 c cs hpc ih =>
    simp [replaceRuns, subRunsAux, hpc, ih, subRunsAux_true_eq_dropWhile]

/-- C9: normalization is idempotent: for every string `x`,
`normalize_name (normalize_name x) = normalize_name x`. -/
theorem normalize_name_idem (s : Str) :
    normalize_name (normalize_name s) = normalize_name s := by
  have hp : isWordChar '-' = false := by decide
  have hok : okFrom isWordChar false (normalize_name s) = true :=
    okFrom_stripDash isWordChar hp _ ((okFrom_subRunsAux isWordChar hp (pyLower s)).2)
  calc normalize_name (normalize_name s)
      = stripDash (subRunsAux isWordChar false (pyLower (normalize_name s))) := rfl
    _ = stripDash (subRunsAux isWordChar false (normalize_name s)) := by
        rw [pyLower_fix_normalize]
    _ = stripDash (normalize_name s) := by
        rw [subRunsAux_fix isWordChar (normalize_name s) false hok]
    _ = normalize_name s := stripDash_stripDash (subNonWord (pyLower s))

/-- C8 counterexample: the claim says maximal runs of NON-ALPHANUMERIC
characters collapse to `'-'`, but the source's `\W` keeps the underscore:
on the input `"_"` the code returns `"_"` while the claimed rule returns
`""`. -/
theorem normalize_name_claim_counterexample :
    normalize_name "_".data = ['_'] ∧ normalize_name_claim "_".data = [] ∧
    ¬ (normalize_name "_".data = normalize_name_claim "_".data) := by
  have h2 : normalize_name_claim "_".data = [] := by
    rw [normalize_name_claim, replaceRuns_eq_subRunsAux]
    decide
  refine ⟨by decide, h2, ?_⟩
  rw [h2]
  decide

/-- C8 (amended): `normalize_name` lowercases the input, replaces every
maximal run of non-word characters (characters that are neither alphanumeric
nor the underscore) with a single `'-'`, and strips leading and trailing
`'-'`; it never fails, and the empty string maps to the empty string. -/
theorem normalize_name_word_runs (s : Str) :
    normalize_name s = stripDash (replaceRuns isWordChar (pyLower s)) ∧
    normalize_name [] = [] := by
  constructor
  · rw [replaceRuns_eq_subRunsAux]
    rfl
  · rfl

end PytestGitlabFold
